import Mathlib

/-!
Verification of the hida type-layout-resolution specification.

The repository ships only C/C++ header fixtures; the layout engine itself is
absent, so the engine (graph data model, layout resolver, reachability filter,
flatten/alias normalizer) is modelled here from the specification text, while
the fixture graphs below are transcribed from the headers under the
repository's header directory.
-/

namespace Hida

/-- Rounds `n` up to the next multiple of `a` (identity when `a = 0`). -/
def roundUp (n a : Nat) : Nat :=
  if a = 0 then n else ((n + a - 1) / a) * a

/-- Fuel-driven power-of-two test (structural, so it reduces by `rfl`). -/
def isPow2Aux : Nat → Nat → Bool
  | 0, _ => false
  | _ + 1, 0 => false
  | _ + 1, 1 => true
  | fuel + 1, n + 2 => ((n + 2) % 2 == 0) && isPow2Aux fuel ((n + 2) / 2)

/-- Whether `n` is a power of two. -/
def isPow2 (n : Nat) : Bool := isPow2Aux n n

/-- Modelled from the spec: the active pack-alignment bound (PackingContext)
caps an alignment value; `none` means natural alignment is in force. -/
def capAlign : Option Nat → Nat → Nat
  | none, a => a
  | some p, a => min a p

/-- Product of the extents of a (multi-dimensional) array declaration. -/
def prodDims : List Nat → Nat
  | [] => 1
  | d :: ds => d * prodDims ds

/-- Concatenation of the images of a list under a list-valued function. -/
def catMap (f : α → List β) : List α → List β
  | [] => []
  | a :: l => f a ++ catMap f l

/-- Sequences a fallible computation over a list, stopping at the first error. -/
def mapExcept : List α → (α → Except ε β) → Except ε (List β)
  | [], _ => .ok []
  | a :: l, f =>
    match f a with
    | .error e => .error e
    | .ok b =>
      match mapExcept l f with
      | .error e => .error e
      | .ok bs => .ok (b :: bs)

/-- Modelled from the spec: type expressions referencing graph nodes by
qualified name.  Primitive, pointer and function-pointer types carry their
platform-fixed sizes (LP64: pointers are 8 bytes); arrays carry an ordered
extent list; `named` is a reference edge to an interned node. -/
inductive Ty where
  | prim (name : String) (size align : Nat)
  | ptr (pointee : String)
  | funptr
  | arr (elem : Ty) (dims : List Nat)
  | named (n : String)
deriving DecidableEq

/-- Modelled from the spec: an explicit placement annotation, produced only by
the flatten pass, recording where a promoted field lives in its owner together
with the size and alignment its type resolved to. -/
structure Explicit where
  byteOffset : Nat
  bitOffset : Nat
  size : Nat
  align : Nat
deriving DecidableEq

/-- Modelled from the spec: a struct member.  `bitWidth` set marks a bitfield;
`anonymous` marks a field whose type is an anonymous composite declaration
(such members are promotable by the flatten pass); `explicit` is set only on
fields produced by the flatten pass. -/
structure Field where
  name : Option String
  ty : Ty
  bitWidth : Option Nat
  anonymous : Bool
  explicit : Option Explicit
deriving DecidableEq

/-- Modelled from the spec: one record of a resolved `field_offsets` mapping:
the field identity data together with its byte offset, bit offset, bit width,
resolved size and alignment.  `wasExplicit` records whether the field carried
an explicit placement (i.e. was produced by flattening). -/
structure FieldOffset where
  name : Option String
  ty : Ty
  byteOffset : Nat
  bitOffset : Nat
  bitWidth : Option Nat
  size : Nat
  align : Nat
  anonymous : Bool
  wasExplicit : Bool
deriving DecidableEq

/-- Modelled from the spec: resolver output for one node: size and alignment
in bytes, the field-offset records, and the padding holes as
(byte offset, byte length) pairs. -/
structure Layout where
  size : Nat
  alignment : Nat
  fieldOffsets : List FieldOffset
  holes : List (Nat × Nat)
deriving DecidableEq

/-- Modelled from the spec: an interned type-graph node: an enum (optional
declared underlying size plus variants), a struct or union (fields, optional
pack bound, union flag), or a typedef alias of a target type. -/
inductive Node where
  | enumNode (underlying : Option Nat) (variants : List (String × Int))
  | structNode (fields : List Field) (packing : Option Nat) (isUnion : Bool)
  | typedefNode (target : Ty)
deriving DecidableEq

/-- Modelled from the spec: the deduplicated type graph, keyed by fully
qualified name. -/
abbrev Graph := List (String × Node)

/-- Modelled from the spec: node-level resolution errors (`UnknownTypeError`,
`CycleError`, `InvalidPackingError`); `outOfFuel` is the artifact of the
bounded recursion used by this embedding. -/
inductive LayoutError where
  | unknownType
  | cycleError
  | invalidPacking
  | outOfFuel
deriving DecidableEq

/-- Looks a node up by qualified name (first match wins). -/
def lookupNode : Graph → String → Option Node
  | [], _ => none
  | (k, v) :: rest, n => if k = n then some v else lookupNode rest n

/-- A field of a struct after its type has been resolved: name, resolved size
and alignment, bitfield width, anonymity, the original type expression and the
explicit placement if one was declared. -/
structure RField where
  name : Option String
  size : Nat
  align : Nat
  bitWidth : Option Nat
  anonymous : Bool
  ty : Ty
  explicitOffset : Option (Nat × Nat)
deriving DecidableEq

/-- Smallest integer size (1, 2, 4 or 8 bytes) whose range holds `v`. -/
def smallestIntSize (v : Nat) : Nat :=
  if v < 256 then 1 else if v < 65536 then 2 else if v < 4294967296 then 4 else 8

/-- Widest variant magnitude of an enum's variant list. -/
def widestVariant (vars : List (String × Int)) : Nat :=
  vars.foldl (fun acc x => max acc x.2.natAbs) 0

/-- Modelled from the spec: the underlying size of an enum: the declared one
when present, otherwise the smallest integer type holding the widest variant
value. -/
def underlyingSize (u : Option Nat) (vars : List (String × Int)) : Nat :=
  match u with
  | some s => s
  | none => smallestIntSize (widestVariant vars)

/-- Modelled from the spec: an enum resolves with size = alignment =
underlying size and no fields or holes. -/
def enumLayout (u : Option Nat) (vars : List (String × Int)) : Layout :=
  ⟨underlyingSize u vars, underlyingSize u vars, [], []⟩

/-- State of the struct layout cursor: current byte cursor, running maximum
member alignment, accumulated field-offset records and holes, and the open
bitfield storage unit as (unit size in bytes, bits consumed), if any.  While a
unit is open the cursor points at the unit's first byte. -/
structure SState where
  cursor : Nat
  maxAlign : Nat
  entries : List FieldOffset
  holes : List (Nat × Nat)
  unit : Option (Nat × Nat)
deriving DecidableEq

/-- Closes the open bitfield storage unit, advancing the cursor past it. -/
def closeUnit (s : SState) : SState :=
  match s.unit with
  | none => s
  | some (us, _) => { s with cursor := s.cursor + us, unit := none }

/-- Records the alignment gap between the cursor and `off` as a hole. -/
def recordGap (s : SState) (off : Nat) : SState :=
  if s.cursor < off then { s with holes := s.holes ++ [(s.cursor, off - s.cursor)] } else s

/-- Appends one field-offset record. -/
def addEntry (s : SState) (e : FieldOffset) : SState :=
  { s with entries := s.entries ++ [e] }

/-- Modelled from the spec: opens a fresh bitfield storage unit sized to the
declared type of `f`, aligning the unit to the declared type's alignment; an
unnamed bitfield reserves its bits but produces no field-offset record. -/
def openUnit (s : SState) (f : RField) (w : Nat) : SState :=
  let s1 := closeUnit s
  let off := roundUp s1.cursor f.align
  let s2 := recordGap s1 off
  let s3 := { s2 with cursor := off, maxAlign := max s2.maxAlign f.align,
                      unit := some (f.size, w) }
  match f.name with
  | some _ => addEntry s3 ⟨f.name, f.ty, off, 0, some w, f.size, f.align, f.anonymous, false⟩
  | none => s3

/-- Modelled from the spec: places one field.  A field with an explicit
placement is recorded verbatim and only extends the cursor.  A non-bitfield
field closes any open unit, rounds the cursor up to its alignment capped by
the pack bound, records the gap as a hole and advances the cursor.  A bitfield
continues the open storage unit when the declared type size matches and bits
remain, otherwise opens a new unit; a zero-width bitfield closes the unit; an
unnamed bitfield reserves bits but yields no record. -/
def structStep (pack : Option Nat) (s : SState) (f : RField) : SState :=
  match f.explicitOffset with
  | some (b, bit) =>
    let s1 := closeUnit s
    let s2 := addEntry s1 ⟨f.name, f.ty, b, bit, f.bitWidth, f.size, f.align, f.anonymous, true⟩
    { s2 with maxAlign := max s2.maxAlign f.align, cursor := max s2.cursor (b + f.size) }
  | none =>
    match f.bitWidth with
    | none =>
      let s1 := closeUnit s
      let off := roundUp s1.cursor (capAlign pack f.align)
      let s2 := recordGap s1 off
      let s3 := addEntry s2 ⟨f.name, f.ty, off, 0, none, f.size, f.align, f.anonymous, false⟩
      { s3 with cursor := off + f.size, maxAlign := max s3.maxAlign f.align }
    | some 0 => closeUnit s
    | some (w + 1) =>
      match s.unit with
      | some (us, used) =>
        if us = f.size ∧ used + (w + 1) ≤ 8 * us then
          let s1 := { s with unit := some (us, used + (w + 1)) }
          match f.name with
          | some _ =>
            addEntry s1 ⟨f.name, f.ty, s.cursor, used, some (w + 1), f.size, f.align, f.anonymous, false⟩
          | none => s1
        else openUnit s f (w + 1)
      | none => openUnit s f (w + 1)

/-- Folds `structStep` over the fields in declaration order. -/
def runFields (pack : Option Nat) : SState → List RField → SState
  | s, [] => s
  | s, f :: fs => runFields pack (structStep pack s f) fs

/-- The initial layout state: cursor 0, maximum alignment 1, no open unit. -/
def initState : SState := ⟨0, 1, [], [], none⟩

/-- Modelled from the spec: the core non-union struct layout algorithm: place
the fields in declaration order, then round the cursor up to the maximum
member alignment capped by the pack bound; the trailing gap is a hole. -/
def layoutStruct (pack : Option Nat) (rfs : List RField) : Layout :=
  let s := closeUnit (runFields pack initState rfs)
  let al := capAlign pack s.maxAlign
  let sz := roundUp s.cursor al
  let hs := if s.cursor < sz then s.holes ++ [(s.cursor, sz - s.cursor)] else s.holes
  ⟨sz, al, s.entries, hs⟩

/-- The field-offset record of one union member: explicit placements verbatim,
other members at offset 0; an unnamed or zero-width bitfield yields none. -/
def unionEntry (f : RField) : List FieldOffset :=
  match f.explicitOffset with
  | some (b, bit) => [⟨f.name, f.ty, b, bit, f.bitWidth, f.size, f.align, f.anonymous, true⟩]
  | none =>
    match f.bitWidth with
    | some 0 => []
    | some (w + 1) =>
      match f.name with
      | none => []
      | some _ => [⟨f.name, f.ty, 0, 0, some (w + 1), f.size, f.align, f.anonymous, false⟩]
    | none => [⟨f.name, f.ty, 0, 0, none, f.size, f.align, f.anonymous, false⟩]

/-- Bytes a union member occupies from offset 0. -/
def unionExtent (f : RField) : Nat :=
  match f.explicitOffset with
  | some (b, _) => b + f.size
  | none => f.size

/-- Maximum member alignment of a union (at least 1). -/
def maxAlignOf (rfs : List RField) : Nat :=
  rfs.foldr (fun f acc => max f.align acc) 1

/-- Maximum member extent of a union. -/
def maxExtentOf (rfs : List RField) : Nat :=
  rfs.foldr (fun f acc => max (unionExtent f) acc) 0

/-- Maximum member size of a union. -/
def maxSizeOf (rfs : List RField) : Nat :=
  rfs.foldr (fun f acc => max f.size acc) 0

/-- Modelled from the spec: union layout: every member at offset 0, size the
maximum member size rounded up to the maximum member alignment (capped by the
pack bound), and no holes. -/
def layoutUnion (pack : Option Nat) (rfs : List RField) : Layout :=
  let al := capAlign pack (maxAlignOf rfs)
  ⟨roundUp (maxExtentOf rfs) al, al, catMap unionEntry rfs, []⟩

/-- Whether a declared pack bound is acceptable (positive power of two). -/
def packOk : Option Nat → Bool
  | none => true
  | some p => isPow2 p

/-- Modelled from the spec: the layout resolver.  Walks the graph bottom-up:
primitives, pointers and function pointers have fixed size/alignment; arrays
multiply the element size by the extents; enums use the underlying size;
typedefs delegate verbatim to their target; structs and unions resolve each
field type and run the placement algorithm.  `vis` is the chain of named
nodes currently being resolved: revisiting one is a value-containment or
typedef cycle and fails with `cycleError`; pointer edges are never followed.
`fuel` bounds the recursion depth. -/
def resolveTy (g : Graph) : Nat → List String → Ty → Except LayoutError Layout
  | 0, _, _ => .error .outOfFuel
  | fuel + 1, vis, t =>
    match t with
    | .prim _ s a => .ok ⟨s, a, [], []⟩
    | .ptr _ => .ok ⟨8, 8, [], []⟩
    | .funptr => .ok ⟨8, 8, [], []⟩
    | .arr e dims =>
      (resolveTy g fuel vis e).map (fun L => ⟨L.size * prodDims dims, L.alignment, [], []⟩)
    | .named n =>
      if n ∈ vis then .error .cycleError
      else
        match lookupNode g n with
        | none => .error .unknownType
        | some (.typedefNode tgt) => resolveTy g fuel (n :: vis) tgt
        | some (.enumNode u vars) => .ok (enumLayout u vars)
        | some (.structNode fs pack isU) =>
          if packOk pack then
            (mapExcept fs (fun f =>
              match f.explicit with
              | some ex =>
                .ok ⟨f.name, ex.size, ex.align, f.bitWidth, f.anonymous, f.ty,
                     some (ex.byteOffset, ex.bitOffset)⟩
              | none =>
                (resolveTy g fuel (n :: vis) f.ty).map (fun L =>
                  ⟨f.name, L.size, L.alignment, f.bitWidth, f.anonymous, f.ty, none⟩))).map
              (fun rfs => if isU then layoutUnion pack rfs else layoutStruct pack rfs)
          else .error .invalidPacking

/-- Recursion bound used by the engine entry points; ample for every fixture. -/
def engineFuel : Nat := 64

/-- Resolves a type expression from an empty visiting chain. -/
def layoutOfTy (g : Graph) (t : Ty) : Except LayoutError Layout :=
  resolveTy g engineFuel [] t

/-- Modelled from the spec: the layout query by qualified name. -/
def layoutOf (g : Graph) (n : String) : Except LayoutError Layout :=
  layoutOfTy g (.named n)

/-- Modelled from the spec: best-effort per-node resolution, collecting each
node's layout or error independently of the others. -/
def resolveAll (g : Graph) : List (String × Except LayoutError Layout) :=
  g.map (fun p => (p.1, layoutOf g p.1))

/-- Names referenced by a type expression (dependency edges; pointer, array
and alias edges are all followed by the reachability filter). -/
def tyDeps : Ty → List String
  | .prim _ _ _ => []
  | .ptr n => [n]
  | .funptr => []
  | .arr e _ => tyDeps e
  | .named n => [n]

/-- Dependency edges of a node. -/
def nodeDeps : Node → List String
  | .enumNode _ _ => []
  | .typedefNode t => tyDeps t
  | .structNode fs _ _ => catMap (fun f => tyDeps f.ty) fs

/-- Modelled from the spec: depth-first traversal over dependency edges.
`visited` accumulates the visited names; `stack` is the work list. -/
def dfsVisit (g : Graph) : Nat → List String → List String → List String
  | 0, visited, _ => visited
  | _ + 1, visited, [] => visited
  | fuel + 1, visited, n :: stack =>
    if n ∈ visited then dfsVisit g fuel visited stack
    else
      match lookupNode g n with
      | none => dfsVisit g fuel (n :: visited) stack
      | some node => dfsVisit g fuel (n :: visited) (nodeDeps node ++ stack)

/-- The set of names visited by the depth-first traversal from `roots`. -/
def reachSet (g : Graph) (roots : List String) : List String :=
  dfsVisit g engineFuel [] roots

/-- Modelled from the spec: the reachability filter: a node is retained in
the output view iff its name was visited by the traversal. -/
def filterGraph (g : Graph) (roots : List String) : Graph :=
  g.filter (fun p => decide (p.1 ∈ reachSet g roots))

/-- Modelled from the spec: alias canonicalization: follow typedef links to
the first non-typedef node and return its qualified name. -/
def canonical (g : Graph) : Nat → String → String
  | 0, n => n
  | fuel + 1, n =>
    match lookupNode g n with
    | some (.typedefNode (.named m)) => canonical g fuel m
    | _ => n

/-- Whether a type expression refers to a composite (struct or union) node. -/
def isCompositeTy (g : Graph) : Ty → Bool
  | .named n =>
    match lookupNode g n with
    | some (.structNode _ _ _) => true
    | _ => false
  | _ => false

/-- Shifts a promoted field-offset record by the owning field's byte and bit
offsets (both components shift). -/
def shiftEntry (b bit : Nat) (e : FieldOffset) : FieldOffset :=
  { e with byteOffset := e.byteOffset + b, bitOffset := e.bitOffset + bit }

/-- Modelled from the spec: the flatten pass on one field-offset list: every
record of an anonymous nested composite is replaced by the composite's own
records, recursively flattened, each shifted by the parent record's offsets;
records carrying an explicit placement were produced by an earlier flatten
run and are kept as they are. -/
def flattenEntries (g : Graph) : Nat → List FieldOffset → List FieldOffset
  | 0, es => es
  | fuel + 1, es =>
    catMap (fun e =>
      if e.wasExplicit then [e]
      else if e.anonymous && isCompositeTy g e.ty then
        match layoutOfTy g e.ty with
        | .ok L => (flattenEntries g fuel L.fieldOffsets).map (shiftEntry e.byteOffset e.bitOffset)
        | .error _ => [e]
      else [e]) es

/-- Rebuilds a field from a flattened field-offset record, pinning the record
as the field's explicit placement. -/
def fieldOfEntry (e : FieldOffset) : Field :=
  ⟨e.name, e.ty, e.bitWidth, e.anonymous, some ⟨e.byteOffset, e.bitOffset, e.size, e.align⟩⟩

/-- The flattened field-offset records of node `n` (empty when `n` has no
resolvable layout). -/
def flattenedEntriesOf (g : Graph) (n : String) : List FieldOffset :=
  match layoutOf g n with
  | .ok L => flattenEntries g engineFuel L.fieldOffsets
  | .error _ => []

/-- Modelled from the spec: the flatten pass on one node: a struct or union is
rebuilt with its flattened field list (fields pinned at their promoted
offsets); a node without a resolvable layout keeps no fields; other nodes are
untouched. -/
def flattenNode (g : Graph) (n : String) (node : Node) : Node :=
  match node with
  | .structNode _ pack isU =>
    match layoutOf g n with
    | .ok L => .structNode ((flattenEntries g engineFuel L.fieldOffsets).map fieldOfEntry) pack isU
    | .error _ => .structNode [] pack isU
  | _ => node

/-- Modelled from the spec: the flatten pass over a whole graph. -/
def flattenGraph (g : Graph) : Graph :=
  g.map (fun p => (p.1, flattenNode g p.1 p.2))

/-! Platform primitive types (LP64 ABI, as evidenced by the fixtures). -/

def uintTy : Ty := .prim "unsigned int" 4 4
def intTy : Ty := .prim "int" 4 4
def floatTy : Ty := .prim "float" 4 4
def doubleTy : Ty := .prim "double" 8 8
def longTy : Ty := .prim "long" 8 8
def charTy : Ty := .prim "char" 1 1
def i8Ty : Ty := .prim "int8_t" 1 1
def u8Ty : Ty := .prim "uint8_t" 1 1
def i16Ty : Ty := .prim "int16_t" 2 2
def u16Ty : Ty := .prim "uint16_t" 2 2
def i32Ty : Ty := .prim "int32_t" 4 4
def u32Ty : Ty := .prim "uint32_t" 4 4
def i64Ty : Ty := .prim "int64_t" 8 8
def u64Ty : Ty := .prim "uint64_t" 8 8

/-- A plain named member. -/
def mkField (n : String) (t : Ty) : Field := ⟨some n, t, none, false, none⟩

/-- A named bitfield member of declared type `t` and width `w`. -/
def mkBf (n : String) (t : Ty) (w : Nat) : Field := ⟨some n, t, some w, false, none⟩

/-- An unnamed (padding) bitfield member. -/
def mkAnonBf (t : Ty) (w : Nat) : Field := ⟨none, t, some w, false, none⟩

/-- An unnamed member of an anonymous composite type (promotable). -/
def mkAnon (t : Ty) : Field := ⟨none, t, none, true, none⟩

/-- A named member whose type is an anonymous composite (promotable). -/
def mkAnonTyped (n : String) (t : Ty) : Field := ⟨some n, t, none, true, none⟩

/-- Fixture graph of bitfield_holes.h: structs Holey and Packed. -/
def holeyGraph : Graph :=
  [("Holey", .structNode [mkBf "a" uintTy 3, mkBf "b" uintTy 5, mkBf "c" uintTy 1] none false),
   ("Packed", .structNode [mkBf "x" uintTy 2, mkBf "y" uintTy 6] none false)]

/-- Fixture graph of the BitfieldStruct declaration of complicated.h. -/
def bitfieldGraph : Graph :=
  [("BitfieldStruct", .structNode
      [mkBf "a" uintTy 3, mkBf "b" intTy 5, mkAnonBf uintTy 2, mkBf "c" uintTy 8] none false)]

/-- Fixture graph of connected_filter.h. -/
def connGraph : Graph :=
  [("MyInt", .typedefNode intTy),
   ("Unused", .structNode [mkField "ignored" doubleTy] none false),
   ("Nested", .structNode [mkField "value" (.named "MyInt")] none false),
   ("Wrapper", .structNode [mkField "nested" (.named "Nested")] none false),
   ("Payload", .structNode
      [mkField "wrapper" (.named "Wrapper"), mkField "fallback" floatTy] none true),
   ("Status", .enumNode none [("OK", 0), ("ERROR", 1)]),
   ("Main", .structNode
      [mkField "payload" (.named "Payload"), mkField "status" (.named "Status")] none false)]

/-- Fixture graph of flatten.h (namespace demo). -/
def flattenHGraph : Graph :=
  [("demo::Inner", .structNode [mkField "a" u8Ty, mkField "b" u16Ty] none false),
   ("demo::Wrapper", .structNode
      [mkField "x" u32Ty, mkField "inner" (.named "demo::Inner"), mkField "y" u8Ty] none false),
   ("demo::WrapperArr", .structNode
      [mkField "items" (.arr (.named "demo::Inner") [2])] none false)]

/-- The flatten example of the spec: an anonymous union containing a named
member of anonymous struct type and a u32, embedded anonymously in a parent
behind one u32 member, so the union sits at parent byte offset 4. -/
def flattenExGraph : Graph :=
  [("P", .structNode [mkField "w" u32Ty, mkAnon (.named "P::U")] none false),
   ("P::U", .structNode
      [mkAnonTyped "split" (.named "P::U::S"), mkField "raw" u32Ty] none true),
   ("P::U::S", .structNode [mkField "a" u16Ty, mkField "b" u16Ty] none false)]

/-- Fixture graph of unions.h. -/
def unionsGraph : Graph :=
  [("IntOrFloat", .structNode [mkField "i" intTy, mkField "f" floatTy] none true),
   ("Packet", .structNode
      [mkField "type" intTy, mkField "data" (.named "Packet::Payload")] none false),
   ("Packet::Payload", .structNode
      [mkField "int_val" intTy, mkField "float_val" floatTy,
       mkField "bytes" (.arr charTy [4])] none true),
   ("Mixed", .structNode [mkField "tag" intTy, mkAnon (.named "Mixed::<anon>")] none false),
   ("Mixed::<anon>", .structNode [mkField "d" doubleTy, mkField "l" longTy] none true),
   ("NestedUnion", .structNode
      [mkField "id" intTy, mkAnonTyped "nested" (.named "NestedUnion::<s>")] none true),
   ("NestedUnion::<s>", .structNode
      [mkField "c" charTy, mkAnon (.named "NestedUnion::<s>::<u>")] none false),
   ("NestedUnion::<s>::<u>", .structNode
      [mkField "inner_i" intTy, mkField "inner_f" floatTy] none true)]

/-- Fixture graph of enums.h. -/
def enumsGraph : Graph :=
  [("Color", .enumNode none [("Red", 0), ("Green", 1), ("Blue", 5), ("Yellow", 6)]),
   ("Direction", .enumNode none [("North", 0), ("South", 1), ("East", 2), ("West", 3)]),
   ("StatusCode", .enumNode (some 1) [("OK", 0), ("Error", 1), ("Timeout", 2), ("Unknown", 255)]),
   ("ErrorLevel", .enumNode (some 2) [("Info", 1), ("Warning", 2), ("Critical", 3)])]

/-- Fixture graph of flat_enum.h (namespace demo). -/
def flatEnumGraph : Graph :=
  [("demo::Color", .enumNode (some 1) [("Red", 1), ("Green", 2)]),
   ("demo::ColorAlias", .typedefNode (.named "demo::Color")),
   ("demo::UsesColor", .structNode
      [mkField "c1" (.named "demo::Color"), mkField "c2" (.named "demo::ColorAlias"),
       mkField "n" u8Ty] none false)]

/-- Fixture graph of packing.h: the same two-field shape under natural
alignment and pack bounds 1, 2 and 4. -/
def packGraph : Graph :=
  [("DefaultAlign", .structNode [mkField "a" u8Ty, mkField "b" u32Ty] none false),
   ("Packed1", .structNode [mkField "a" u8Ty, mkField "b" u32Ty] (some 1) false),
   ("Packed2", .structNode [mkField "a" u8Ty, mkField "b" u32Ty] (some 2) false),
   ("Packed4", .structNode [mkField "a" u8Ty, mkField "b" u32Ty] (some 4) false)]

/-- Fixture graph of the C and D structs of fixed_width.h. -/
def fixedWidthGraph : Graph :=
  [("C", .structNode
      [mkField "arr1" (.arr i32Ty [4]), mkField "arr2" (.arr u64Ty [2, 3])] none false),
   ("D", .structNode
      [mkField "d1" (.arr u16Ty [5, 6]), mkField "d2" (.arr i8Ty [0])] none false)]

/-- A value-containment cycle (struct A contains B by value and vice versa)
next to an unrelated resolvable struct C. -/
def cycleGraph : Graph :=
  [("A", .structNode [mkField "b" (.named "B")] none false),
   ("B", .structNode [mkField "a" (.named "A")] none false),
   ("C", .structNode [mkField "x" intTy] none false)]

/-- A self-referential struct through a pointer edge (a legal cycle). -/
def ptrCycleGraph : Graph :=
  [("ListNode", .structNode [mkField "next" (.ptr "ListNode"), mkField "val" intTy] none false)]

/-- A typedef chain that revisits a node. -/
def tdCycleGraph : Graph :=
  [("T", .typedefNode (.named "T"))]

/-! Arithmetic facts about `roundUp` and `isPow2`. -/

theorem le_roundUp (n a : Nat) : n ≤ roundUp n a := by
  unfold roundUp
  split
  · exact Nat.le_refl n
  · next h =>
    have ha : 0 < a := Nat.pos_of_ne_zero h
    have h1 : n + a - 1 < a * ((n + a - 1) / a + 1) := Nat.lt_mul_div_succ _ ha
    rw [Nat.mul_add, Nat.mul_one, Nat.mul_comm] at h1
    omega

theorem roundUp_dvd (n a : Nat) (h : a ≠ 0) : a ∣ roundUp n a := by
  unfold roundUp
  simp only [h, if_false]
  exact dvd_mul_left a _

theorem roundUp_le {n a m : Nat} (hnm : n ≤ m) (hd : a ∣ m) : roundUp n a ≤ m := by
  unfold roundUp
  split
  · exact hnm
  · next h =>
    have ha : 0 < a := Nat.pos_of_ne_zero h
    obtain ⟨k, rfl⟩ := hd
    have h1 : (n + a - 1) / a < k + 1 := by
      rw [Nat.div_lt_iff_lt_mul ha, Nat.add_mul, Nat.one_mul, Nat.mul_comm k a]
      omega
    have h2 : (n + a - 1) / a * a ≤ k * a := Nat.mul_le_mul_right a (Nat.lt_succ_iff.mp h1)
    exact le_trans h2 (le_of_eq (Nat.mul_comm k a))

theorem roundUp_mono_left {c1 c2 : Nat} (h : c1 ≤ c2) (a : Nat) :
    roundUp c1 a ≤ roundUp c2 a := by
  by_cases ha : a = 0
  · simpa [roundUp, ha] using h
  · exact roundUp_le (le_trans h (le_roundUp c2 a)) (roundUp_dvd c2 a ha)

theorem roundUp_mono {c1 c2 d1 d2 : Nat} (hc : c1 ≤ c2) (hd : d1 ∣ d2) (h2 : d2 ≠ 0) :
    roundUp c1 d1 ≤ roundUp c2 d2 :=
  roundUp_le (le_trans hc (le_roundUp c2 d2)) (dvd_trans hd (roundUp_dvd c2 d2 h2))

theorem isPow2Aux_iff : ∀ fuel n, n ≤ fuel → (isPow2Aux fuel n = true ↔ ∃ k, n = 2 ^ k) := by
  intro fuel
  induction fuel with
  | zero =>
    intro n hn
    interval_cases n
    simp only [isPow2Aux]
    constructor
    · intro h; exact absurd h (by simp)
    · rintro ⟨k, hk⟩; exact absurd hk.symm (Nat.pos_iff_ne_zero.mp (Nat.pos_pow_of_pos k (by omega)))
  | succ fuel ih =>
    intro n hn
    match n with
    | 0 =>
      simp only [isPow2Aux]
      constructor
      · intro h; exact absurd h (by simp)
      · rintro ⟨k, hk⟩
        exact absurd hk.symm (Nat.pos_iff_ne_zero.mp (Nat.pos_pow_of_pos k (by omega)))
    | 1 =>
      simp only [isPow2Aux]
      exact ⟨fun _ => ⟨0, rfl⟩, fun _ => trivial⟩
    | m + 2 =>
      have hdiv : (m + 2) / 2 < m + 2 := Nat.div_lt_self (by omega) (by omega)
      have hfuel : (m + 2) / 2 ≤ fuel := by omega
      have ihh := ih ((m + 2) / 2) hfuel
      simp only [isPow2Aux, Bool.and_eq_true, beq_iff_eq]
      rw [ihh]
      have hmod := Nat.div_add_mod (m + 2) 2
      constructor
      · rintro ⟨hev, k, hk⟩
        refine ⟨k + 1, ?_⟩
        rw [pow_succ]
        omega
      · rintro ⟨k, hk⟩
        match k with
        | 0 => omega
        | j + 1 =>
          rw [pow_succ] at hk
          have h2 : (m + 2) % 2 = 0 := by omega
          refine ⟨h2, j, ?_⟩
          omega

theorem isPow2_iff (n : Nat) : isPow2 n = true ↔ ∃ k, n = 2 ^ k :=
  isPow2Aux_iff n n (Nat.le_refl n)

theorem pow2_pos {n : Nat} (h : isPow2 n = true) : 0 < n := by
  obtain ⟨k, rfl⟩ := (isPow2_iff n).mp h
  exact Nat.pos_pow_of_pos k (by omega)

theorem pow2_dvd_of_le {a b : Nat} (ha : isPow2 a = true) (hb : isPow2 b = true)
    (hab : a ≤ b) : a ∣ b := by
  obtain ⟨i, rfl⟩ := (isPow2_iff a).mp ha
  obtain ⟨j, rfl⟩ := (isPow2_iff b).mp hb
  exact pow_dvd_pow 2 ((Nat.pow_le_pow_iff_right (by omega)).mp hab)

theorem pow2_max {a b : Nat} (ha : isPow2 a = true) (hb : isPow2 b = true) :
    isPow2 (max a b) = true := by
  rcases Nat.le_total a b with h | h
  · rwa [Nat.max_eq_right h]
  · rwa [Nat.max_eq_left h]

theorem pow2_min {a b : Nat} (ha : isPow2 a = true) (hb : isPow2 b = true) :
    isPow2 (min a b) = true := by
  rcases Nat.le_total a b with h | h
  · rwa [Nat.min_eq_left h]
  · rwa [Nat.min_eq_right h]

/-- Ordering on pack bounds, `none` standing for the absent (loosest) bound. -/
def packLE : Option Nat → Option Nat → Bool
  | _, none => true
  | none, some _ => false
  | some a, some b => a ≤ b

theorem pow2_capAlign {a : Nat} {p : Option Nat} (ha : isPow2 a = true)
    (hp : packOk p = true) : isPow2 (capAlign p a) = true := by
  match p with
  | none => exact ha
  | some q => exact pow2_min ha hp

theorem capAlign_le {a : Nat} {p q : Option Nat} (hpq : packLE p q = true) :
    capAlign p a ≤ capAlign q a := by
  match p, q with
  | none, none => exact Nat.le_refl _
  | some r, none => exact Nat.min_le_left a r
  | none, some r => simp [packLE] at hpq
  | some r, some s =>
    have h : r ≤ s := by simpa [packLE] using hpq
    exact min_le_min (Nat.le_refl a) h

theorem capAlign_dvd {a : Nat} {p q : Option Nat} (ha : isPow2 a = true)
    (hp : packOk p = true) (hq : packOk q = true) (hpq : packLE p q = true) :
    capAlign p a ∣ capAlign q a :=
  pow2_dvd_of_le (pow2_capAlign ha hp) (pow2_capAlign ha hq) (capAlign_le hpq)

theorem capAlign_pos {a : Nat} {p : Option Nat} (ha : isPow2 a = true)
    (hp : packOk p = true) : 0 < capAlign p a :=
  pow2_pos (pow2_capAlign ha hp)

/-! State-machine lemmas for the struct layout algorithm. -/

@[simp]
theorem closeUnit_maxAlign (s : SState) : (closeUnit s).maxAlign = s.maxAlign := by
  unfold closeUnit; split <;> rfl

@[simp]
theorem closeUnit_unit (s : SState) : (closeUnit s).unit = none := by
  unfold closeUnit
  split
  · next h => exact h
  · rfl

@[simp]
theorem closeUnit_entries (s : SState) : (closeUnit s).entries = s.entries := by
  unfold closeUnit; split <;> rfl

@[simp]
theorem closeUnit_holes (s : SState) : (closeUnit s).holes = s.holes := by
  unfold closeUnit; split <;> rfl

@[simp]
theorem recordGap_maxAlign (s : SState) (o : Nat) : (recordGap s o).maxAlign = s.maxAlign := by
  unfold recordGap; split <;> rfl

@[simp]
theorem recordGap_unit (s : SState) (o : Nat) : (recordGap s o).unit = s.unit := by
  unfold recordGap; split <;> rfl

@[simp]
theorem recordGap_cursor (s : SState) (o : Nat) : (recordGap s o).cursor = s.cursor := by
  unfold recordGap; split <;> rfl

@[simp]
theorem recordGap_entries (s : SState) (o : Nat) : (recordGap s o).entries = s.entries := by
  unfold recordGap; split <;> rfl

@[simp]
theorem addEntry_maxAlign (s : SState) (e : FieldOffset) : (addEntry s e).maxAlign = s.maxAlign :=
  rfl

@[simp]
theorem addEntry_unit (s : SState) (e : FieldOffset) : (addEntry s e).unit = s.unit := rfl

@[simp]
theorem addEntry_cursor (s : SState) (e : FieldOffset) : (addEntry s e).cursor = s.cursor := rfl

@[simp]
theorem addEntry_holes (s : SState) (e : FieldOffset) : (addEntry s e).holes = s.holes := rfl

@[simp]
theorem addEntry_entries (s : SState) (e : FieldOffset) :
    (addEntry s e).entries = s.entries ++ [e] := rfl

@[simp]
theorem openUnit_maxAlign (s : SState) (f : RField) (w : Nat) :
    (openUnit s f w).maxAlign = max s.maxAlign f.align := by
  unfold openUnit
  match f with
  | ⟨none, _, _, _, _, _, _⟩ => simp
  | ⟨some nm, _, _, _, _, _, _⟩ => simp

@[simp]
theorem openUnit_unit (s : SState) (f : RField) (w : Nat) :
    (openUnit s f w).unit = some (f.size, w) := by
  unfold openUnit
  match f with
  | ⟨none, _, _, _, _, _, _⟩ => simp
  | ⟨some nm, _, _, _, _, _, _⟩ => simp

@[simp]
theorem openUnit_cursor (s : SState) (f : RField) (w : Nat) :
    (openUnit s f w).cursor = roundUp (closeUnit s).cursor f.align := by
  unfold openUnit
  match f with
  | ⟨none, _, _, _, _, _, _⟩ => simp
  | ⟨some nm, _, _, _, _, _, _⟩ => simp

theorem closeUnit_cursor_le {s t : SState} (hu : s.unit = t.unit) (hc : s.cursor ≤ t.cursor) :
    (closeUnit s).cursor ≤ (closeUnit t).cursor := by
  unfold closeUnit
  rw [← hu]
  cases s.unit with
  | none => exact hc
  | some u => exact Nat.add_le_add_right hc u.1

/-- Pack-bound independence: the running maximum alignment and the open
storage unit evolve identically under any two pack bounds. -/
theorem structStep_mu {p q : Option Nat} {s t : SState} (f : RField)
    (hm : s.maxAlign = t.maxAlign) (hu : s.unit = t.unit) :
    (structStep p s f).maxAlign = (structStep q t f).maxAlign ∧
      (structStep p s f).unit = (structStep q t f).unit := by
  obtain ⟨fn, fsz, fal, fbw, fan, fty, fex⟩ := f
  cases fex with
  | some bb =>
    obtain ⟨b, bit⟩ := bb
    simp [structStep, hm]
  | none =>
    cases fbw with
    | none => simp [structStep, hm]
    | some w =>
      cases w with
      | zero => simp [structStep, hm]
      | succ w =>
        simp only [structStep]
        rw [← hu]
        cases s.unit with
        | none => simp [hm]
        | some uu =>
          obtain ⟨us, used⟩ := uu
          by_cases hcond : us = fsz ∧ used + (w + 1) ≤ 8 * us
          · obtain ⟨h1, h2⟩ := hcond
            subst h1
            cases fn <;> simp [h2, hm]
          · simp [hcond, hm]

/-- Cursor monotonicity of one placement step: under a smaller pack bound the
cursor never moves further right. -/
theorem structStep_cursor_le {p q : Option Nat} {s t : SState} (f : RField)
    (hal : isPow2 f.align = true) (hp : packOk p = true) (hq : packOk q = true)
    (hpq : packLE p q = true) (hu : s.unit = t.unit) (hc : s.cursor ≤ t.cursor) :
    (structStep p s f).cursor ≤ (structStep q t f).cursor := by
  have hclose := closeUnit_cursor_le hu hc
  obtain ⟨fn, fsz, fal, fbw, fan, fty, fex⟩ := f
  cases fex with
  | some bb =>
    obtain ⟨b, bit⟩ := bb
    simp only [structStep, addEntry_cursor]
    exact max_le_max hclose (Nat.le_refl _)
  | none =>
    cases fbw with
    | none =>
      simp only [structStep, addEntry_cursor, recordGap_cursor]
      exact Nat.add_le_add_right
        (roundUp_mono hclose (capAlign_dvd hal hp hq hpq)
          (Nat.pos_iff_ne_zero.mp (capAlign_pos hal hq))) fsz
    | some w =>
      cases w with
      | zero => exact hclose
      | succ w =>
        simp only [structStep]
        rw [← hu]
        cases s.unit with
        | none =>
          simp only [openUnit_cursor]
          exact roundUp_mono_left hclose fal
        | some uu =>
          obtain ⟨us, used⟩ := uu
          by_cases hcond : us = fsz ∧ used + (w + 1) ≤ 8 * us
          · obtain ⟨h1, h2⟩ := hcond
            subst h1
            cases fn <;> simpa [h2] using hc
          · simp only [hcond, if_false, openUnit_cursor]
            exact roundUp_mono_left hclose fal

/-- One placement step keeps the running maximum alignment a power of two. -/
theorem structStep_maxAlign_pow2 {p : Option Nat} {s : SState} (f : RField)
    (hs : isPow2 s.maxAlign = true) (hal : isPow2 f.align = true) :
    isPow2 (structStep p s f).maxAlign = true := by
  obtain ⟨fn, fsz, fal, fbw, fan, fty, fex⟩ := f
  cases fex with
  | some bb =>
    obtain ⟨b, bit⟩ := bb
    simpa [structStep] using pow2_max hs hal
  | none =>
    cases fbw with
    | none => simpa [structStep] using pow2_max hs hal
    | some w =>
      cases w with
      | zero => simpa [structStep] using hs
      | succ w =>
        simp only [structStep]
        cases s.unit with
        | none => simpa using pow2_max hs hal
        | some uu =>
          obtain ⟨us, used⟩ := uu
          by_cases hcond : us = fsz ∧ used + (w + 1) ≤ 8 * us
          · obtain ⟨h1, h2⟩ := hcond
            subst h1
            cases fn <;> simpa [h2] using hs
          · simpa [hcond] using pow2_max hs hal

/-- Two-run simulation over a whole field list. -/
theorem runFields_sim {p q : Option Nat} (hp : packOk p = true) (hq : packOk q = true)
    (hpq : packLE p q = true) :
    ∀ (fs : List RField) (s t : SState), (∀ f ∈ fs, isPow2 f.align = true) →
      s.maxAlign = t.maxAlign → s.unit = t.unit → s.cursor ≤ t.cursor →
      (runFields p s fs).maxAlign = (runFields q t fs).maxAlign ∧
        (runFields p s fs).unit = (runFields q t fs).unit ∧
        (runFields p s fs).cursor ≤ (runFields q t fs).cursor := by
  intro fs
  induction fs with
  | nil => exact fun s t _ hm hu hc => ⟨hm, hu, hc⟩
  | cons f fs ih =>
    intro s t hfs hm hu hc
    have hf : isPow2 f.align = true := hfs f (by simp)
    have hmu := structStep_mu (p := p) (q := q) (s := s) (t := t) f hm hu
    have hcur := structStep_cursor_le (p := p) (q := q) (s := s) (t := t) f hf hp hq hpq hu hc
    exact ih (structStep p s f) (structStep q t f)
      (fun x hx => hfs x (by simp [hx])) hmu.1 hmu.2 hcur

/-- Pack-bound independence of the final maximum alignment. -/
theorem runFields_mu {p q : Option Nat} :
    ∀ (fs : List RField) (s t : SState), s.maxAlign = t.maxAlign → s.unit = t.unit →
      (runFields p s fs).maxAlign = (runFields q t fs).maxAlign ∧
        (runFields p s fs).unit = (runFields q t fs).unit := by
  intro fs
  induction fs with
  | nil => exact fun s t hm hu => ⟨hm, hu⟩
  | cons f fs ih =>
    intro s t hm hu
    have hmu := structStep_mu (p := p) (q := q) (s := s) (t := t) f hm hu
    exact ih (structStep p s f) (structStep q t f) hmu.1 hmu.2

/-- The running maximum alignment stays a power of two. -/
theorem runFields_maxAlign_pow2 {p : Option Nat} :
    ∀ (fs : List RField) (s : SState), isPow2 s.maxAlign = true →
      (∀ f ∈ fs, isPow2 f.align = true) → isPow2 (runFields p s fs).maxAlign = true := by
  intro fs
  induction fs with
  | nil => exact fun s hs _ => hs
  | cons f fs ih =>
    intro s hs hfs
    exact ih (structStep p s f) (structStep_maxAlign_pow2 f hs (hfs f (by simp)))
      (fun x hx => hfs x (by simp [hx]))

/-- Resolved alignment under a pack bound is the natural alignment capped by
the bound. -/
theorem layoutStruct_alignment_cap (rfs : List RField) (p : Nat) :
    (layoutStruct (some p) rfs).alignment = min ((layoutStruct none rfs).alignment) p := by
  unfold layoutStruct
  have h := runFields_mu (p := some p) (q := none) rfs initState initState rfl rfl
  simp [capAlign, h.1]

/-- Shrinking the pack bound never increases the resolved size. -/
theorem layoutStruct_size_mono (rfs : List RField) {p q : Option Nat}
    (hp : packOk p = true) (hq : packOk q = true) (hpq : packLE p q = true)
    (hfs : ∀ f ∈ rfs, isPow2 f.align = true) :
    (layoutStruct p rfs).size ≤ (layoutStruct q rfs).size := by
  unfold layoutStruct
  have hsim := runFields_sim hp hq hpq rfs initState initState hfs rfl rfl (Nat.le_refl 0)
  have hpow : isPow2 (runFields p initState rfs).maxAlign = true :=
    runFields_maxAlign_pow2 rfs initState (by rfl) hfs
  have hcur := closeUnit_cursor_le hsim.2.1 hsim.2.2
  simp only [closeUnit_maxAlign]
  rw [hsim.1]
  exact roundUp_mono hcur
    (capAlign_dvd (by rw [← hsim.1]; exact hpow) hp hq hpq)
    (Nat.pos_iff_ne_zero.mp (capAlign_pos (by rw [← hsim.1]; exact hpow) hq))

/-! Depth-first traversal and reachability-filter lemmas. -/

theorem dfsVisit_mono (g : Graph) :
    ∀ fuel visited stack, ∀ x ∈ visited, x ∈ dfsVisit g fuel visited stack := by
  intro fuel
  induction fuel with
  | zero => intro visited stack x hx; simpa [dfsVisit] using hx
  | succ fuel ih =>
    intro visited stack x hx
    cases stack with
    | nil => simpa [dfsVisit] using hx
    | cons n rest =>
      by_cases hn : n ∈ visited
      · simp only [dfsVisit, if_pos hn]
        exact ih _ _ x hx
      · simp only [dfsVisit, if_neg hn]
        cases hl : lookupNode g n with
        | none => exact ih _ _ x (by simp [hx])
        | some node => exact ih _ _ x (by simp [hx])

/-- If two graphs agree on every name the traversal of the first visits, the
traversals coincide. -/
theorem dfsVisit_trace (g g' : Graph) :
    ∀ fuel visited stack,
      (∀ m ∈ dfsVisit g fuel visited stack, lookupNode g' m = lookupNode g m) →
      dfsVisit g' fuel visited stack = dfsVisit g fuel visited stack := by
  intro fuel
  induction fuel with
  | zero => intro visited stack _; simp [dfsVisit]
  | succ fuel ih =>
    intro visited stack H
    cases stack with
    | nil => simp [dfsVisit]
    | cons n rest =>
      by_cases hn : n ∈ visited
      · simp only [dfsVisit, if_pos hn]
        exact ih _ _ (by simpa only [dfsVisit, if_pos hn] using H)
      · have hnres : n ∈ dfsVisit g (fuel + 1) visited (n :: rest) := by
          simp only [dfsVisit, if_neg hn]
          cases hl : lookupNode g n with
          | none => exact dfsVisit_mono g fuel _ _ n (by simp)
          | some node => exact dfsVisit_mono g fuel _ _ n (by simp)
        have hlk : lookupNode g' n = lookupNode g n := H n hnres
        simp only [dfsVisit, if_neg hn, hlk]
        cases hl : lookupNode g n with
        | none =>
          exact ih _ _ (fun m hm => H m (by simpa only [dfsVisit, if_neg hn, hl] using hm))
        | some node =>
          exact ih _ _ (fun m hm => H m (by simpa only [dfsVisit, if_neg hn, hl] using hm))

/-- Key-predicate filtering commutes with lookup. -/
theorem lookupNode_filter (P : String → Bool) :
    ∀ (g : Graph) (n : String),
      lookupNode (g.filter (fun p => P p.1)) n = if P n then lookupNode g n else none := by
  intro g
  induction g with
  | nil => intro n; simp [lookupNode]
  | cons kv rest ih =>
    intro n
    obtain ⟨k, v⟩ := kv
    by_cases hk : P k
    · rw [List.filter_cons]
      by_cases hkn : k = n
      · subst hkn
        simp [lookupNode, hk]
      · simp [lookupNode, hkn, hk, ih]
    · rw [List.filter_cons]
      by_cases hkn : k = n
      · subst hkn
        simp [lookupNode, hk, ih, Bool.not_eq_true]
      · simp [lookupNode, hkn, hk, ih]

/-- Retained nodes keep their identity: lookup through the filtered view
agrees with the original graph exactly on the visited names. -/
theorem lookupNode_filterGraph (g : Graph) (roots : List String) (n : String) :
    lookupNode (filterGraph g roots) n =
      if n ∈ reachSet g roots then lookupNode g n else none := by
  unfold filterGraph
  rw [lookupNode_filter (fun x => decide (x ∈ reachSet g roots))]
  by_cases h : n ∈ reachSet g roots <;> simp [h]

/-- Filtering is idempotent: the traversal of the filtered view visits the
same names, so filtering again changes nothing. -/
theorem filterGraph_idem (g : Graph) (roots : List String) :
    filterGraph (filterGraph g roots) roots = filterGraph g roots := by
  have htrace : dfsVisit (filterGraph g roots) engineFuel [] roots =
      dfsVisit g engineFuel [] roots := by
    apply dfsVisit_trace
    intro m hm
    rw [lookupNode_filterGraph]
    simp [reachSet, hm]
  show List.filter _ (List.filter _ g) = List.filter _ g
  have hP : (fun p : String × Node => decide (p.1 ∈ reachSet (filterGraph g roots) roots)) =
      fun p : String × Node => decide (p.1 ∈ reachSet g roots) := by
    funext p
    simp [reachSet, htrace]
  rw [hP, List.filter_filter]
  exact List.filter_congr (fun x _ => Bool.and_self _)

/-! Flatten-pass stability lemmas. -/

/-- The resolved field record of a field, when its placement is explicit
(the `none` branch is a placeholder never reached under the side condition). -/
def expRF (f : Field) : RField :=
  match f.explicit with
  | some ex => ⟨f.name, ex.size, ex.align, f.bitWidth, f.anonymous, f.ty,
                some (ex.byteOffset, ex.bitOffset)⟩
  | none => ⟨f.name, 0, 0, f.bitWidth, f.anonymous, f.ty, none⟩

/-- The field-offset record an explicitly placed field is echoed to. -/
def expEntry (rf : RField) : List FieldOffset :=
  match rf.explicitOffset with
  | some (b, bit) => [⟨rf.name, rf.ty, b, bit, rf.bitWidth, rf.size, rf.align, rf.anonymous, true⟩]
  | none => []

theorem mapExcept_of_forall_ok {α β ε : Type _} (F : α → Except ε β) (G : α → β) :
    ∀ l : List α, (∀ a ∈ l, F a = .ok (G a)) → mapExcept l F = .ok (l.map G) := by
  intro l
  induction l with
  | nil => intro _; rfl
  | cons a l ih =>
    intro h
    have ha := h a (by simp)
    have hl := ih (fun x hx => h x (by simp [hx]))
    simp [mapExcept, ha, hl]

theorem closeUnit_of_none {s : SState} (h : s.unit = none) : closeUnit s = s := by
  unfold closeUnit
  rw [h]

/-- Explicitly placed fields are echoed verbatim by the struct algorithm. -/
theorem runFields_explicit (p : Option Nat) :
    ∀ (rfs : List RField) (s : SState), (∀ f ∈ rfs, f.explicitOffset.isSome = true) →
      (runFields p s rfs).entries = s.entries ++ catMap expEntry rfs := by
  intro rfs
  induction rfs with
  | nil => intro s _; exact (List.append_nil s.entries).symm
  | cons f fs ih =>
    intro s hex
    have hf := hex f (by simp)
    have h1 : (structStep p s f).entries = s.entries ++ expEntry f := by
      obtain ⟨fn, fsz, fal, fbw, fan, fty, fex⟩ := f
      cases fex with
      | none => simp at hf
      | some bb =>
        obtain ⟨b, bit⟩ := bb
        simp [structStep, expEntry]
    have h2 := ih (structStep p s f) (fun x hx => hex x (by simp [hx]))
    calc (runFields p s (f :: fs)).entries
        = (structStep p s f).entries ++ catMap expEntry fs := h2
      _ = s.entries ++ catMap expEntry (f :: fs) := by
          rw [h1, List.append_assoc]; rfl

/-- The flattened struct layout of an all-explicit field list echoes the
recorded placements. -/
theorem layoutStruct_explicit (p : Option Nat) (rfs : List RField)
    (hex : ∀ f ∈ rfs, f.explicitOffset.isSome = true) :
    (layoutStruct p rfs).fieldOffsets = catMap expEntry rfs := by
  have h := runFields_explicit p rfs initState hex
  simpa [layoutStruct, initState] using h

/-- Union members with explicit placements are echoed identically. -/
theorem catMap_unionEntry_exp :
    ∀ rfs : List RField, (∀ f ∈ rfs, f.explicitOffset.isSome = true) →
      catMap unionEntry rfs = catMap expEntry rfs := by
  intro rfs
  induction rfs with
  | nil => intro _; rfl
  | cons f fs ih =>
    intro hex
    have hf := hex f (by simp)
    have h1 : unionEntry f = expEntry f := by
      obtain ⟨fn, fsz, fal, fbw, fan, fty, fex⟩ := f
      cases fex with
      | none => simp at hf
      | some bb =>
        obtain ⟨b, bit⟩ := bb
        rfl
    simp only [catMap, h1, ih (fun x hx => hex x (by simp [hx]))]

theorem layoutUnion_explicit (p : Option Nat) (rfs : List RField)
    (hex : ∀ f ∈ rfs, f.explicitOffset.isSome = true) :
    (layoutUnion p rfs).fieldOffsets = catMap expEntry rfs :=
  catMap_unionEntry_exp rfs hex

theorem expEntry_wasExplicit (rf : RField) : ∀ e ∈ expEntry rf, e.wasExplicit = true := by
  obtain ⟨fn, fsz, fal, fbw, fan, fty, fex⟩ := rf
  cases fex with
  | none => simp [expEntry]
  | some bb =>
    obtain ⟨b, bit⟩ := bb
    simp [expEntry]

theorem catMap_forall {f : α → List β} {P : β → Prop} :
    ∀ l : List α, (∀ a ∈ l, ∀ b ∈ f a, P b) → ∀ b ∈ catMap f l, P b := by
  intro l
  induction l with
  | nil => intro _ b hb; cases hb
  | cons a l ih =>
    intro hf b hb
    rcases List.mem_append.mp hb with h | h
    · exact hf a (by simp) b h
    · exact ih (fun x hx => hf x (by simp [hx])) b h

theorem flattenEntries_nil (g : Graph) : ∀ fuel, flattenEntries g fuel [] = [] := by
  intro fuel
  cases fuel <;> rfl

theorem flattenEntries_cons (g : Graph) (fuel : Nat) (e : FieldOffset) (es : List FieldOffset) :
    flattenEntries g (fuel + 1) (e :: es) =
      (if e.wasExplicit then [e]
       else if e.anonymous && isCompositeTy g e.ty then
        match layoutOfTy g e.ty with
        | .ok L => (flattenEntries g fuel L.fieldOffsets).map (shiftEntry e.byteOffset e.bitOffset)
        | .error _ => [e]
       else [e]) ++ flattenEntries g (fuel + 1) es := rfl

/-- Records marked as explicitly placed are left alone by the flatten pass. -/
theorem flattenEntries_of_wasExplicit (g : Graph) (fuel : Nat) :
    ∀ es : List FieldOffset, (∀ e ∈ es, e.wasExplicit = true) →
      flattenEntries g fuel es = es := by
  cases fuel with
  | zero => intro es _; rfl
  | succ fuel =>
    intro es
    induction es with
    | nil => intro _; rfl
    | cons e es ih =>
      intro h
      have he := h e (by simp)
      rw [flattenEntries_cons, ih (fun x hx => h x (by simp [hx]))]
      simp [he]

theorem fieldOfEntry_explicit (e : FieldOffset) : (fieldOfEntry e).explicit.isSome = true := rfl

/-- Rebuilding the fields from the echoed records restores the field list. -/
theorem catMap_expEntry_map :
    ∀ Fs : List Field, (∀ f ∈ Fs, f.explicit.isSome = true) →
      (catMap expEntry (Fs.map expRF)).map fieldOfEntry = Fs := by
  intro Fs
  induction Fs with
  | nil => intro _; rfl
  | cons f fs ih =>
    intro hex
    have hf := hex f (by simp)
    have h1 : (expEntry (expRF f)).map fieldOfEntry = [f] := by
      obtain ⟨fn, fty, fbw, fan, fex⟩ := f
      cases fex with
      | none => simp at hf
      | some ex =>
        obtain ⟨eb, ebit, esz, eal⟩ := ex
        rfl
    simp only [List.map_cons, catMap, List.map_append, h1,
      ih (fun x hx => hex x (by simp [hx]))]
    rfl

theorem lookupNode_map (h : String → Node → Node) :
    ∀ (g : Graph) (n : String),
      lookupNode (g.map (fun p => (p.1, h p.1 p.2))) n = (lookupNode g n).map (h n) := by
  intro g
  induction g with
  | nil => intro n; rfl
  | cons kv rest ih =>
    intro n
    obtain ⟨k, v⟩ := kv
    by_cases hkn : k = n
    · subst hkn; simp [lookupNode]
    · simp [lookupNode, hkn, ih]

theorem lookupNode_of_mem {g : Graph} (hnd : (g.map Prod.fst).Nodup) {n : String} {node : Node}
    (h : (n, node) ∈ g) : lookupNode g n = some node := by
  induction g with
  | nil => cases h
  | cons kv rest ih =>
    obtain ⟨k, v⟩ := kv
    simp only [List.map_cons, List.nodup_cons] at hnd
    rcases List.mem_cons.mp h with heq | hmem
    · cases heq
      simp [lookupNode]
    · by_cases hkn : k = n
      · subst hkn
        exact absurd (List.mem_map_of_mem Prod.fst hmem) (by simpa using hnd.1)
      · simp only [lookupNode, hkn, if_false]
        exact ih hnd.2 hmem

/-- One-step unfolding of the resolver at a struct or union node. -/
theorem resolveTy_named_struct (g : Graph) (fuel : Nat) (vis : List String) (n : String)
    (fs : List Field) (pack : Option Nat) (isU : Bool)
    (hv : n ∉ vis) (hlk : lookupNode g n = some (.structNode fs pack isU)) :
    resolveTy g (fuel + 1) vis (.named n) =
      if packOk pack then
        (mapExcept fs (fun f =>
          match f.explicit with
          | some ex =>
            .ok ⟨f.name, ex.size, ex.align, f.bitWidth, f.anonymous, f.ty,
                 some (ex.byteOffset, ex.bitOffset)⟩
          | none =>
            (resolveTy g fuel (n :: vis) f.ty).map (fun L =>
              ⟨f.name, L.size, L.alignment, f.bitWidth, f.anonymous, f.ty, none⟩))).map
          (fun rfs => if isU then layoutUnion pack rfs else layoutStruct pack rfs)
      else .error .invalidPacking := by
  simp [resolveTy, hv, hlk]

/-- A flattened struct node (all fields explicitly placed, acceptable pack
bound) is a fixed point of the flatten pass. -/
theorem flattenNode_stable (g' : Graph) (n : String) (Fs : List Field) (pack : Option Nat)
    (isU : Bool) (hlk : lookupNode g' n = some (.structNode Fs pack isU))
    (hex : ∀ f ∈ Fs, f.explicit.isSome = true) (hpk : packOk pack = true) :
    flattenNode g' n (.structNode Fs pack isU) = .structNode Fs pack isU := by
  have h256 : engineFuel = 63 + 1 := rfl
  have hok : ∀ f ∈ Fs, (fun f : Field =>
      match f.explicit with
      | some ex =>
        Except.ok (ε := LayoutError)
          (⟨f.name, ex.size, ex.align, f.bitWidth, f.anonymous, f.ty,
            some (ex.byteOffset, ex.bitOffset)⟩ : RField)
      | none =>
        (resolveTy g' 63 (n :: []) f.ty).map (fun L : Layout =>
          ⟨f.name, L.size, L.alignment, f.bitWidth, f.anonymous, f.ty, none⟩)) f
      = .ok (expRF f) := by
    intro f hf
    have hfe := hex f hf
    obtain ⟨fn, fty, fbw, fan, fex⟩ := f
    cases fex with
    | none => simp at hfe
    | some ex => rfl
  have hres : layoutOf g' n =
      .ok (if isU then layoutUnion pack (Fs.map expRF) else layoutStruct pack (Fs.map expRF)) := by
    unfold layoutOf layoutOfTy
    rw [h256, resolveTy_named_struct g' 63 [] n Fs pack isU (by simp) hlk, if_pos hpk,
      mapExcept_of_forall_ok _ expRF Fs hok]
    rfl
  have hrfsex : ∀ rf ∈ Fs.map expRF, rf.explicitOffset.isSome = true := by
    intro rf hrf
    obtain ⟨f, hf, rfl⟩ := List.mem_map.mp hrf
    have hfe := hex f hf
    obtain ⟨fn, fty, fbw, fan, fex⟩ := f
    cases fex with
    | none => simp at hfe
    | some ex => rfl
  have hentries : (if isU then layoutUnion pack (Fs.map expRF)
      else layoutStruct pack (Fs.map expRF)).fieldOffsets = catMap expEntry (Fs.map expRF) := by
    cases isU
    · simpa using layoutStruct_explicit pack _ hrfsex
    · simpa using layoutUnion_explicit pack _ hrfsex
  have hwex : ∀ e ∈ catMap expEntry (Fs.map expRF), e.wasExplicit = true :=
    catMap_forall _ (fun rf _ => expEntry_wasExplicit rf)
  unfold flattenNode
  rw [hres]
  dsimp only
  rw [hentries, flattenEntries_of_wasExplicit g' engineFuel _ hwex, catMap_expEntry_map Fs hex]

/-- A struct node the flatten pass emptied is a fixed point of the pass. -/
theorem flattenNode_stable_empty (g' : Graph) (n : String) (pack : Option Nat) (isU : Bool)
    (hlk : lookupNode g' n = some (.structNode [] pack isU)) :
    flattenNode g' n (.structNode [] pack isU) = .structNode [] pack isU := by
  have h256 : engineFuel = 63 + 1 := rfl
  by_cases hpk : packOk pack = true
  · have hres : layoutOf g' n =
        .ok (if isU then layoutUnion pack [] else layoutStruct pack []) := by
      unfold layoutOf layoutOfTy
      rw [h256, resolveTy_named_struct g' 63 [] n [] pack isU (by simp) hlk, if_pos hpk]
      rfl
    have hentries : (if isU then layoutUnion pack []
        else layoutStruct pack ([] : List RField)).fieldOffsets = [] := by
      cases isU <;> rfl
    unfold flattenNode
    rw [hres]
    dsimp only
    rw [hentries, flattenEntries_nil g' engineFuel]
    rfl
  · have hres : layoutOf g' n = .error .invalidPacking := by
      unfold layoutOf layoutOfTy
      rw [h256, resolveTy_named_struct g' 63 [] n [] pack isU (by simp) hlk,
        if_neg (by simpa using hpk)]
    unfold flattenNode
    rw [hres]

/-- Flattening a deduplicated graph is idempotent. -/
theorem flattenGraph_idem (g : Graph) (hnd : (g.map Prod.fst).Nodup) :
    flattenGraph (flattenGraph g) = flattenGraph g := by
  have h256 : engineFuel = 63 + 1 := rfl
  have hmain : ∀ p ∈ flattenGraph g,
      (p.1, flattenNode (flattenGraph g) p.1 p.2) = p := by
    intro p hp
    obtain ⟨q, hq, rfl⟩ := List.mem_map.mp hp
    obtain ⟨n, node⟩ := q
    have hlkg : lookupNode g n = some node := lookupNode_of_mem hnd hq
    have hlkG : lookupNode (flattenGraph g) n = some (flattenNode g n node) := by
      show lookupNode (g.map (fun p => (p.1, flattenNode g p.1 p.2))) n = _
      rw [lookupNode_map (flattenNode g) g n, hlkg]
      rfl
    cases node with
    | enumNode u vars => rfl
    | typedefNode t => rfl
    | structNode fs pack isU =>
      cases hres : layoutOf g n with
      | ok L =>
        have hpk : packOk pack = true := by
          by_contra hc
          have hfalse : packOk pack = false := by simpa using hc
          have hthis := resolveTy_named_struct g 63 [] n fs pack isU (by simp) hlkg
          rw [if_neg (by simp [hfalse])] at hthis
          unfold layoutOf layoutOfTy at hres
          rw [h256, hthis] at hres
          simp at hres
        have hstep1 : flattenNode g n (.structNode fs pack isU) =
            .structNode ((flattenEntries g engineFuel L.fieldOffsets).map fieldOfEntry)
              pack isU := by
          unfold flattenNode
          rw [hres]
        have hexFs : ∀ f ∈ (flattenEntries g engineFuel L.fieldOffsets).map fieldOfEntry,
            f.explicit.isSome = true := by
          intro f hf
          obtain ⟨e, _, rfl⟩ := List.mem_map.mp hf
          exact fieldOfEntry_explicit e
        have hlk2 : lookupNode (flattenGraph g) n =
            some (.structNode ((flattenEntries g engineFuel L.fieldOffsets).map fieldOfEntry)
              pack isU) := by
          rw [hlkG, hstep1]
        show (n, flattenNode (flattenGraph g) n (flattenNode g n (.structNode fs pack isU)))
            = (n, flattenNode g n (.structNode fs pack isU))
        rw [hstep1, flattenNode_stable (flattenGraph g) n _ pack isU hlk2 hexFs hpk]
      | error e =>
        have hstep1 : flattenNode g n (.structNode fs pack isU) = .structNode [] pack isU := by
          unfold flattenNode
          rw [hres]
        have hlk2 : lookupNode (flattenGraph g) n = some (.structNode [] pack isU) := by
          rw [hlkG, hstep1]
        show (n, flattenNode (flattenGraph g) n (flattenNode g n (.structNode fs pack isU)))
            = (n, flattenNode g n (.structNode fs pack isU))
        rw [hstep1, flattenNode_stable_empty (flattenGraph g) n pack isU hlk2]
  show (flattenGraph g).map (fun p => (p.1, flattenNode (flattenGraph g) p.1 p.2)) = flattenGraph g
  calc (flattenGraph g).map (fun p => (p.1, flattenNode (flattenGraph g) p.1 p.2))
      = (flattenGraph g).map id := List.map_congr_left hmain
    _ = flattenGraph g := List.map_id _

/-! Per-claim supporting lemmas. -/

theorem layoutStruct_fieldOffsets (p : Option Nat) (rfs : List RField) :
    (layoutStruct p rfs).fieldOffsets = (runFields p initState rfs).entries := by
  simp [layoutStruct]

/-- A placement step of a parser-produced field only ever records a bitfield
entry together with its name. -/
theorem structStep_named_bitfield {p : Option Nat} {s : SState} {f : RField}
    (hne : f.explicitOffset = none)
    (hs : ∀ e ∈ s.entries, e.bitWidth.isSome = true → e.name.isSome = true) :
    ∀ e ∈ (structStep p s f).entries, e.bitWidth.isSome = true → e.name.isSome = true := by
  obtain ⟨fn, fsz, fal, fbw, fan, fty, fex⟩ := f
  cases fex with
  | some bb => simp at hne
  | none =>
    cases fbw with
    | none =>
      intro e he
      simp only [structStep, addEntry_entries, recordGap_entries, closeUnit_entries] at he
      rcases List.mem_append.mp he with h | h
      · exact hs e h
      · intro hbw
        simp at h
        subst h
        simp at hbw
    | some w =>
      cases w with
      | zero =>
        intro e he
        simp only [structStep, closeUnit_entries] at he
        exact hs e he
      | succ w =>
        intro e he
        simp only [structStep] at he
        rcases hsu : s.unit with _ | ⟨us, used⟩ <;> rw [hsu] at he
        · cases fn with
          | none =>
            simp [openUnit] at he
            exact hs e he
          | some nm =>
            simp [openUnit] at he
            rcases he with h | h
            · exact hs e h
            · intro _
              subst h
              rfl
        · by_cases hcond : us = fsz ∧ used + (w + 1) ≤ 8 * us
          · obtain ⟨h1, h2⟩ := hcond
            subst h1
            cases fn with
            | none =>
              simp [h2] at he
              exact hs e he
            | some nm =>
              simp [h2] at he
              rcases he with h | h
              · exact hs e h
              · intro _
                subst h
                rfl
          · simp only [hcond, if_false] at he
            cases fn with
            | none =>
              simp [openUnit] at he
              exact hs e he
            | some nm =>
              simp [openUnit] at he
              rcases he with h | h
              · exact hs e h
              · intro _
                subst h
                rfl

/-- Over a parser-produced field list, every recorded bitfield entry carries a
name: unnamed bitfields reserve space but are never addressable. -/
theorem runFields_named_bitfield (p : Option Nat) :
    ∀ (rfs : List RField) (s : SState), (∀ f ∈ rfs, f.explicitOffset = none) →
      (∀ e ∈ s.entries, e.bitWidth.isSome = true → e.name.isSome = true) →
      ∀ e ∈ (runFields p s rfs).entries, e.bitWidth.isSome = true → e.name.isSome = true := by
  intro rfs
  induction rfs with
  | nil => intro s _ hs; exact hs
  | cons f fs ih =>
    intro s hne hs
    exact ih (structStep p s f) (fun x hx => hne x (by simp [hx]))
      (structStep_named_bitfield (hne f (by simp)) hs)

/-- The flatten pass promotes an anonymous composite record by the parent
offset, both byte and bit components shifting. -/
theorem flattenEntries_promotes (g : Graph) (fuel : Nat) (e : FieldOffset) (L : Layout)
    (h1 : e.wasExplicit = false) (h2 : e.anonymous = true) (h3 : isCompositeTy g e.ty = true)
    (h4 : layoutOfTy g e.ty = .ok L) :
    flattenEntries g (fuel + 1) [e] =
      (flattenEntries g fuel L.fieldOffsets).map (shiftEntry e.byteOffset e.bitOffset) := by
  rw [flattenEntries_cons]
  simp [h1, h2, h3, h4, flattenEntries_nil]

theorem resolveTy_named_enum (g : Graph) (fuel : Nat) (vis : List String) (n : String)
    (u : Option Nat) (vars : List (String × Int))
    (hv : n ∉ vis) (hlk : lookupNode g n = some (.enumNode u vars)) :
    resolveTy g (fuel + 1) vis (.named n) =
      .ok ⟨underlyingSize u vars, underlyingSize u vars, [], []⟩ := by
  simp [resolveTy, hv, hlk, enumLayout]

theorem resolveTy_named_typedef (g : Graph) (fuel : Nat) (vis : List String) (n : String)
    (tgt : Ty) (hv : n ∉ vis) (hlk : lookupNode g n = some (.typedefNode tgt)) :
    resolveTy g (fuel + 1) vis (.named n) = resolveTy g fuel (n :: vis) tgt := by
  simp [resolveTy, hv, hlk]

theorem maxExtentOf_eq_maxSizeOf :
    ∀ rfs : List RField, (∀ f ∈ rfs, f.explicitOffset = none) →
      maxExtentOf rfs = maxSizeOf rfs := by
  intro rfs
  induction rfs with
  | nil => intro _; rfl
  | cons f fs ih =>
    intro hne
    have hf := hne f (by simp)
    have hext : unionExtent f = f.size := by
      unfold unionExtent
      rw [hf]
    simp only [maxExtentOf, maxSizeOf, List.foldr_cons, hext]
    rw [show List.foldr (fun f acc => max (unionExtent f) acc) 0 fs = maxExtentOf fs from rfl,
      show List.foldr (fun f acc => max f.size acc) 0 fs = maxSizeOf fs from rfl,
      ih (fun x hx => hne x (by simp [hx]))]

theorem unionEntry_byteOffset {f : RField} (hne : f.explicitOffset = none) :
    ∀ e ∈ unionEntry f, e.byteOffset = 0 := by
  obtain ⟨fn, fsz, fal, fbw, fan, fty, fex⟩ := f
  cases fex with
  | some bb => simp at hne
  | none =>
    cases fbw with
    | none => simp [unionEntry]
    | some w =>
      cases w with
      | zero => simp [unionEntry]
      | succ w =>
        cases fn with
        | none => simp [unionEntry]
        | some nm => simp [unionEntry]

theorem prodDims_zero : ∀ dims : List Nat, 0 ∈ dims → prodDims dims = 0 := by
  intro dims
  induction dims with
  | nil => intro h; cases h
  | cons d ds ih =>
    intro h
    rcases List.mem_cons.mp h with h0 | h0
    · simp [prodDims, ← h0]
    · simp [prodDims, ih h0]

theorem resolveTy_arr_zero (g : Graph) (fuel : Nat) (vis : List String) (e : Ty)
    (dims : List Nat) (L : Layout) (hL : resolveTy g fuel vis e = .ok L) (h0 : 0 ∈ dims) :
    resolveTy g (fuel + 1) vis (.arr e dims) = .ok ⟨0, L.alignment, [], []⟩ := by
  simp [resolveTy, hL, prodDims_zero dims h0, Except.map]

theorem resolveTy_ptr_ok (g : Graph) (fuel : Nat) (vis : List String) (x : String) :
    resolveTy g (fuel + 1) vis (.ptr x) = .ok ⟨8, 8, [], []⟩ := rfl

theorem resolveAll_mem (g : Graph) (n : String) (node : Node) (h : (n, node) ∈ g) :
    (n, layoutOf g n) ∈ resolveAll g := by
  have := List.mem_map_of_mem (fun p : String × Node => (p.1, layoutOf g p.1)) h
  simpa [resolveAll] using this

/-! Claim theorems. -/

instance {ε α : Type _} [DecidableEq ε] [DecidableEq α] : DecidableEq (Except ε α) := fun a b =>
  match a, b with
  | .ok x, .ok y =>
    if h : x = y then isTrue (by rw [h]) else isFalse (by intro hc; cases hc; exact h rfl)
  | .error x, .error y =>
    if h : x = y then isTrue (by rw [h]) else isFalse (by intro hc; cases hc; exact h rfl)
  | .ok _, .error _ => isFalse (by intro hc; cases hc)
  | .error _, .ok _ => isFalse (by intro hc; cases hc)

/-- C1: the Holey bitfields pack into one 32-bit storage unit with bit offsets
a at 0..3, b at 3..8, c at 8..9 and struct size 4; in BitfieldStruct the
unnamed 2-bit field reserves space (c lands at bit 10) but yields no record;
and in general every bitfield record of a parser-produced struct carries a
name, so unnamed bitfields are never addressable. -/
theorem bitfield_packing_c1 :
    (layoutOf holeyGraph "Holey" = .ok ⟨4, 4,
      [⟨some "a", uintTy, 0, 0, some 3, 4, 4, false, false⟩,
       ⟨some "b", uintTy, 0, 3, some 5, 4, 4, false, false⟩,
       ⟨some "c", uintTy, 0, 8, some 1, 4, 4, false, false⟩], []⟩) ∧
    (layoutOf bitfieldGraph "BitfieldStruct" = .ok ⟨4, 4,
      [⟨some "a", uintTy, 0, 0, some 3, 4, 4, false, false⟩,
       ⟨some "b", intTy, 0, 3, some 5, 4, 4, false, false⟩,
       ⟨some "c", uintTy, 0, 10, some 8, 4, 4, false, false⟩], []⟩) ∧
    (∀ (p : Option Nat) (rfs : List RField), (∀ f ∈ rfs, f.explicitOffset = none) →
      ∀ e ∈ (layoutStruct p rfs).fieldOffsets,
        e.bitWidth.isSome = true → e.name.isSome = true) := by
  refine ⟨rfl, rfl, ?_⟩
  intro p rfs hne e he hbw
  rw [layoutStruct_fieldOffsets] at he
  exact runFields_named_bitfield p rfs initState hne (by intro x hx; cases hx) e he hbw

theorem bitfield_packing_c1_witness :
    (⟨some "a", uintTy, 0, 0, some 3, 4, 4, false, false⟩ : FieldOffset).name.isSome = true :=
  bitfield_packing_c1.2.2 none [⟨some "a", 4, 4, some 3, false, uintTy, none⟩]
    (by decide) ⟨some "a", uintTy, 0, 0, some 3, 4, 4, false, false⟩ (by decide) (by decide)

set_option maxRecDepth 4096 in
set_option maxHeartbeats 1600000 in
/-- C2: filter retains a node exactly when the depth-first traversal from the
roots visits it; on the connected_filter.h fixture rooted at Main the nodes
Main, Payload, Wrapper, Nested and Status survive, Unused is dropped, and
every retained node keeps its identity and layout. -/
theorem reachability_filter_c2 :
    (∀ (g : Graph) (roots : List String) (n : String),
      lookupNode (filterGraph g roots) n =
        if n ∈ reachSet g roots then lookupNode g n else none) ∧
    ("Main" ∈ reachSet connGraph ["Main"] ∧ "Payload" ∈ reachSet connGraph ["Main"] ∧
     "Wrapper" ∈ reachSet connGraph ["Main"] ∧ "Nested" ∈ reachSet connGraph ["Main"] ∧
     "Status" ∈ reachSet connGraph ["Main"] ∧ "Unused" ∉ reachSet connGraph ["Main"]) ∧
    lookupNode (filterGraph connGraph ["Main"]) "Unused" = none ∧
    (lookupNode (filterGraph connGraph ["Main"]) "Main" = lookupNode connGraph "Main" ∧
     lookupNode (filterGraph connGraph ["Main"]) "Payload" = lookupNode connGraph "Payload" ∧
     lookupNode (filterGraph connGraph ["Main"]) "Wrapper" = lookupNode connGraph "Wrapper" ∧
     lookupNode (filterGraph connGraph ["Main"]) "Nested" = lookupNode connGraph "Nested" ∧
     lookupNode (filterGraph connGraph ["Main"]) "Status" = lookupNode connGraph "Status") ∧
    (layoutOf (filterGraph connGraph ["Main"]) "Main" = layoutOf connGraph "Main" ∧
     layoutOf (filterGraph connGraph ["Main"]) "Payload" = layoutOf connGraph "Payload" ∧
     layoutOf (filterGraph connGraph ["Main"]) "Wrapper" = layoutOf connGraph "Wrapper" ∧
     layoutOf (filterGraph connGraph ["Main"]) "Nested" = layoutOf connGraph "Nested" ∧
     layoutOf (filterGraph connGraph ["Main"]) "Status" = layoutOf connGraph "Status") :=
  ⟨lookupNode_filterGraph, by decide, by decide,
   ⟨by decide, by decide, by decide, by decide, by decide⟩,
   ⟨by decide, by decide, by decide, by decide, by decide⟩⟩

/-- C3: flatten replaces an anonymous nested-composite record by the nested
composite's own records shifted by the parent offset (byte and bit components
both), leaves named nested members such as demo::Wrapper.inner unpromoted, and
on the spec's anonymous-union example produces a at 4, b at 6, raw at 4; on
Mixed it produces tag at 0, d at 8, l at 8. -/
theorem flatten_promotion_c3 :
    (∀ (g : Graph) (fuel : Nat) (e : FieldOffset) (L : Layout),
      e.wasExplicit = false → e.anonymous = true → isCompositeTy g e.ty = true →
      layoutOfTy g e.ty = .ok L →
      flattenEntries g (fuel + 1) [e] =
        (flattenEntries g fuel L.fieldOffsets).map (shiftEntry e.byteOffset e.bitOffset)) ∧
    (∀ (b bit : Nat) (e : FieldOffset),
      (shiftEntry b bit e).byteOffset = e.byteOffset + b ∧
        (shiftEntry b bit e).bitOffset = e.bitOffset + bit) ∧
    (flattenedEntriesOf flattenExGraph "P" =
      [⟨some "w", u32Ty, 0, 0, none, 4, 4, false, false⟩,
       ⟨some "a", u16Ty, 4, 0, none, 2, 2, false, false⟩,
       ⟨some "b", u16Ty, 6, 0, none, 2, 2, false, false⟩,
       ⟨some "raw", u32Ty, 4, 0, none, 4, 4, false, false⟩]) ∧
    (flattenedEntriesOf flattenHGraph "demo::Wrapper" =
      [⟨some "x", u32Ty, 0, 0, none, 4, 4, false, false⟩,
       ⟨some "inner", .named "demo::Inner", 4, 0, none, 4, 2, false, false⟩,
       ⟨some "y", u8Ty, 8, 0, none, 1, 1, false, false⟩]) ∧
    (flattenedEntriesOf unionsGraph "Mixed" =
      [⟨some "tag", intTy, 0, 0, none, 4, 4, false, false⟩,
       ⟨some "d", doubleTy, 8, 0, none, 8, 8, false, false⟩,
       ⟨some "l", longTy, 8, 0, none, 8, 8, false, false⟩]) :=
  ⟨flattenEntries_promotes, fun _ _ _ => ⟨rfl, rfl⟩, rfl, rfl, rfl⟩

theorem flatten_promotion_c3_witness :
    flattenEntries unionsGraph (63 + 1)
        [⟨none, .named "Mixed::<anon>", 8, 0, none, 8, 8, true, false⟩] =
      (flattenEntries unionsGraph 63
        [⟨some "d", doubleTy, 0, 0, none, 8, 8, false, false⟩,
         ⟨some "l", longTy, 0, 0, none, 8, 8, false, false⟩]).map (shiftEntry 8 0) :=
  flatten_promotion_c3.1 unionsGraph 63
    ⟨none, .named "Mixed::<anon>", 8, 0, none, 8, 8, true, false⟩
    ⟨8, 8, [⟨some "d", doubleTy, 0, 0, none, 8, 8, false, false⟩,
            ⟨some "l", longTy, 0, 0, none, 8, 8, false, false⟩], []⟩
    rfl rfl rfl rfl

/-- C4: resolved alignment under pack bound p is min(natural alignment, p) for
every struct shape, size is antitone in the pack bound, and the packing.h
fixture resolves to sizes 5, 6, 8 and 8 under packs 1, 2, 4 and natural. -/
theorem pack_bound_c4 :
    (∀ (rfs : List RField) (p : Nat),
      (layoutStruct (some p) rfs).alignment = min ((layoutStruct none rfs).alignment) p) ∧
    (∀ (rfs : List RField) (p q : Option Nat), packOk p = true → packOk q = true →
      packLE p q = true → (∀ f ∈ rfs, isPow2 f.align = true) →
      (layoutStruct p rfs).size ≤ (layoutStruct q rfs).size) ∧
    (layoutOf packGraph "Packed1" = .ok ⟨5, 1,
      [⟨some "a", u8Ty, 0, 0, none, 1, 1, false, false⟩,
       ⟨some "b", u32Ty, 1, 0, none, 4, 4, false, false⟩], []⟩) ∧
    (layoutOf packGraph "Packed2" = .ok ⟨6, 2,
      [⟨some "a", u8Ty, 0, 0, none, 1, 1, false, false⟩,
       ⟨some "b", u32Ty, 2, 0, none, 4, 4, false, false⟩], [(1, 1)]⟩) ∧
    (layoutOf packGraph "Packed4" = .ok ⟨8, 4,
      [⟨some "a", u8Ty, 0, 0, none, 1, 1, false, false⟩,
       ⟨some "b", u32Ty, 4, 0, none, 4, 4, false, false⟩], [(1, 3)]⟩) ∧
    (layoutOf packGraph "DefaultAlign" = .ok ⟨8, 4,
      [⟨some "a", u8Ty, 0, 0, none, 1, 1, false, false⟩,
       ⟨some "b", u32Ty, 4, 0, none, 4, 4, false, false⟩], [(1, 3)]⟩) :=
  ⟨layoutStruct_alignment_cap,
   fun rfs _ _ hp hq hpq hfs => layoutStruct_size_mono rfs hp hq hpq hfs,
   rfl, rfl, rfl, rfl⟩

theorem pack_bound_c4_witness :
    (layoutStruct (some 1)
      [⟨some "a", 1, 1, none, false, u8Ty, none⟩,
       ⟨some "b", 4, 4, none, false, u32Ty, none⟩]).size ≤
    (layoutStruct (some 2)
      [⟨some "a", 1, 1, none, false, u8Ty, none⟩,
       ⟨some "b", 4, 4, none, false, u32Ty, none⟩]).size :=
  pack_bound_c4.2.1 _ (some 1) (some 2) rfl rfl rfl (by decide)

/-- C5: an enum resolves with size = alignment = underlying size, the default
underlying type being the smallest integer type holding the widest variant
value, so Color (max 6) and Direction (max 3) resolve to size 1, StatusCode
(declared uint8_t) to 1 and ErrorLevel (declared int16_t) to 2. -/
theorem enum_layout_c5 :
    (∀ (g : Graph) (fuel : Nat) (vis : List String) (n : String) (u : Option Nat)
        (vars : List (String × Int)), n ∉ vis → lookupNode g n = some (.enumNode u vars) →
      resolveTy g (fuel + 1) vis (.named n) =
        .ok ⟨underlyingSize u vars, underlyingSize u vars, [], []⟩) ∧
    layoutOf enumsGraph "Color" = .ok ⟨1, 1, [], []⟩ ∧
    layoutOf enumsGraph "Direction" = .ok ⟨1, 1, [], []⟩ ∧
    layoutOf enumsGraph "StatusCode" = .ok ⟨1, 1, [], []⟩ ∧
    layoutOf enumsGraph "ErrorLevel" = .ok ⟨2, 2, [], []⟩ :=
  ⟨resolveTy_named_enum, rfl, rfl, rfl, rfl⟩

theorem enum_layout_c5_witness :
    resolveTy enumsGraph (63 + 1) [] (.named "Color") = .ok ⟨1, 1, [], []⟩ :=
  enum_layout_c5.1 enumsGraph 63 [] "Color" none
    [("Red", 0), ("Green", 1), ("Blue", 5), ("Yellow", 6)] (by simp) rfl

/-- C6: a typedef delegates its layout verbatim to its target, canonicalizing
demo::ColorAlias and demo::Color to the same name, and both report the
identical Layout record. -/
theorem typedef_alias_c6 :
    (∀ (g : Graph) (fuel : Nat) (vis : List String) (n : String) (tgt : Ty),
      n ∉ vis → lookupNode g n = some (.typedefNode tgt) →
      resolveTy g (fuel + 1) vis (.named n) = resolveTy g fuel (n :: vis) tgt) ∧
    canonical flatEnumGraph engineFuel "demo::ColorAlias" =
      canonical flatEnumGraph engineFuel "demo::Color" ∧
    layoutOf flatEnumGraph "demo::ColorAlias" = layoutOf flatEnumGraph "demo::Color" ∧
    layoutOf flatEnumGraph "demo::ColorAlias" = .ok ⟨1, 1, [], []⟩ :=
  ⟨resolveTy_named_typedef, rfl, rfl, rfl⟩

theorem typedef_alias_c6_witness :
    resolveTy flatEnumGraph (63 + 1) [] (.named "demo::ColorAlias") =
      resolveTy flatEnumGraph 63 ["demo::ColorAlias"] (.named "demo::Color") :=
  typedef_alias_c6.1 flatEnumGraph 63 [] "demo::ColorAlias" (.named "demo::Color")
    (by simp) rfl

/-- C7: every member of a resolved union sits at byte offset 0, the size is
the maximum member size rounded up to the maximum member alignment, the
alignment is the maximum member alignment, and no holes are recorded; the
NestedUnion fixture (union in struct in union) obeys this. -/
theorem union_invariant_c7 :
    (∀ rfs : List RField, (∀ f ∈ rfs, f.explicitOffset = none) →
      (∀ e ∈ (layoutUnion none rfs).fieldOffsets, e.byteOffset = 0) ∧
      (layoutUnion none rfs).size = roundUp (maxSizeOf rfs) (maxAlignOf rfs) ∧
      (layoutUnion none rfs).alignment = maxAlignOf rfs ∧
      (layoutUnion none rfs).holes = []) ∧
    (layoutOf unionsGraph "NestedUnion" = .ok ⟨8, 4,
      [⟨some "id", intTy, 0, 0, none, 4, 4, false, false⟩,
       ⟨some "nested", .named "NestedUnion::<s>", 0, 0, none, 8, 4, true, false⟩], []⟩) ∧
    (layoutOf unionsGraph "NestedUnion::<s>::<u>" = .ok ⟨4, 4,
      [⟨some "inner_i", intTy, 0, 0, none, 4, 4, false, false⟩,
       ⟨some "inner_f", floatTy, 0, 0, none, 4, 4, false, false⟩], []⟩) ∧
    (layoutOf unionsGraph "IntOrFloat" = .ok ⟨4, 4,
      [⟨some "i", intTy, 0, 0, none, 4, 4, false, false⟩,
       ⟨some "f", floatTy, 0, 0, none, 4, 4, false, false⟩], []⟩) := by
  refine ⟨?_, rfl, rfl, rfl⟩
  intro rfs hne
  refine ⟨?_, ?_, rfl, rfl⟩
  · intro e he
    exact catMap_forall rfs (fun a ha => unionEntry_byteOffset (hne a ha)) e he
  · simp [layoutUnion, capAlign, maxExtentOf_eq_maxSizeOf rfs hne]

theorem union_invariant_c7_witness :
    (layoutUnion none
      [⟨some "id", 4, 4, none, false, intTy, none⟩,
       ⟨some "nested", 8, 4, none, true, Ty.named "NestedUnion::<s>", none⟩]).size =
      roundUp (maxSizeOf
        [⟨some "id", 4, 4, none, false, intTy, none⟩,
         ⟨some "nested", 8, 4, none, true, Ty.named "NestedUnion::<s>", none⟩])
        (maxAlignOf
        [⟨some "id", 4, 4, none, false, intTy, none⟩,
         ⟨some "nested", 8, 4, none, true, Ty.named "NestedUnion::<s>", none⟩]) :=
  (union_invariant_c7.1 _ (by decide)).2.1

/-- C8: pointer edges are never followed, so a cycle through a pointer never
raises CycleError (ListNode resolves fine); a value-containment cycle (A, B)
and a typedef self-alias (T) fail with CycleError; the unrelated node C still
resolves, and per-node resolution collects every node's own result. -/
theorem cycle_error_c8 :
    (∀ (g : Graph) (fuel : Nat) (vis : List String) (x : String),
      resolveTy g (fuel + 1) vis (.ptr x) = .ok ⟨8, 8, [], []⟩) ∧
    layoutOf cycleGraph "A" = .error .cycleError ∧
    layoutOf cycleGraph "B" = .error .cycleError ∧
    (layoutOf cycleGraph "C" = .ok ⟨4, 4,
      [⟨some "x", intTy, 0, 0, none, 4, 4, false, false⟩], []⟩) ∧
    (layoutOf ptrCycleGraph "ListNode" = .ok ⟨16, 8,
      [⟨some "next", .ptr "ListNode", 0, 0, none, 8, 8, false, false⟩,
       ⟨some "val", intTy, 8, 0, none, 4, 4, false, false⟩], [(12, 4)]⟩) ∧
    layoutOf tdCycleGraph "T" = .error .cycleError ∧
    (resolveAll cycleGraph =
      [("A", .error .cycleError), ("B", .error .cycleError),
       ("C", .ok ⟨4, 4, [⟨some "x", intTy, 0, 0, none, 4, 4, false, false⟩], []⟩)]) ∧
    (∀ (g : Graph) (n : String) (node : Node), (n, node) ∈ g →
      (n, layoutOf g n) ∈ resolveAll g) :=
  ⟨fun _ _ _ _ => rfl, rfl, rfl, rfl, rfl, rfl, rfl, resolveAll_mem⟩

theorem cycle_error_c8_witness :
    ("C", layoutOf cycleGraph "C") ∈ resolveAll cycleGraph :=
  cycle_error_c8.2.2.2.2.2.2.2 cycleGraph "C"
    (.structNode [mkField "x" intTy] none false) (by decide)

/-- C9: flattening a deduplicated graph twice equals flattening it once, and
filtering twice with the same roots equals filtering once. -/
theorem idempotence_c9 :
    (∀ g : Graph, (g.map Prod.fst).Nodup →
      flattenGraph (flattenGraph g) = flattenGraph g) ∧
    (∀ (g : Graph) (roots : List String),
      filterGraph (filterGraph g roots) roots = filterGraph g roots) :=
  ⟨flattenGraph_idem, filterGraph_idem⟩

theorem idempotence_c9_witness :
    flattenGraph (flattenGraph connGraph) = flattenGraph connGraph :=
  idempotence_c9.1 connGraph (by decide)

/-- C10: an array with a zero extent resolves to size 0 with the element's
alignment, and fixture struct D places the zero-sized d2 at offset 60 without
growing the struct beyond its alignment padding (size stays 60). -/
theorem zero_extent_c10 :
    (∀ (g : Graph) (fuel : Nat) (vis : List String) (e : Ty) (dims : List Nat) (L : Layout),
      resolveTy g fuel vis e = .ok L → 0 ∈ dims →
      resolveTy g (fuel + 1) vis (.arr e dims) = .ok ⟨0, L.alignment, [], []⟩) ∧
    (layoutOf fixedWidthGraph "D" = .ok ⟨60, 2,
      [⟨some "d1", .arr u16Ty [5, 6], 0, 0, none, 60, 2, false, false⟩,
       ⟨some "d2", .arr i8Ty [0], 60, 0, none, 0, 1, false, false⟩], []⟩) :=
  ⟨resolveTy_arr_zero, rfl⟩

theorem zero_extent_c10_witness :
    resolveTy fixedWidthGraph 2 [] (.arr i8Ty [0]) = .ok ⟨0, 1, [], []⟩ :=
  zero_extent_c10.1 fixedWidthGraph 1 [] i8Ty [0] ⟨1, 1, [], []⟩ rfl (by simp)

end Hida
